import Mathlib

/-!
Verification of the candidate-generation pipeline of timsseek.

This file gives a shallow embedding, in Lean 4, of the data model and the
operations of the timsseek repository that the frozen claims are about:

* `src/models.rs` — `DecoyMarking`, `DigestSlice`, decoy-string
  materialization, `deduplicate_digests`, `NamedQueryChunk`;
* `src/digest/digestion.rs` — `cleavage_sites`, `digest`;
* `src/data_sources/speclib.rs` — `Speclib`, `SpeclibIterator`;
* `src/fragment_mass/fragment_mass_builder.rs` — `SafePosition`,
  fragment intensity assignment;
* `src/fragment_mass/elution_group_converter.rs` — `convert_sequence`,
  `convert_sequences`.

Machine integers (`usize`) are modelled as `Nat` with explicit wrap-around
`% 2^64` where the Rust code can underflow.  Fallible operations (Rust
panics / `Result`) are modelled with `Option` / `Except`.  Floating-point
masses are modelled as exact rationals; the one genuinely floating-point
computation (`supersimpleprediction`, which uses `ln`) is abstracted as an
opaque function argument, since no claim depends on its value.  The
chemistry collaborator (the rustyms crate: ProForma parsing, formulas,
theoretical fragment generation) is external to the repository and is
modelled as an abstract oracle argument.
-/

namespace Timsseek

/-- `2^64`, the modulus of Rust's `usize` arithmetic. -/
def USIZE : Nat := 2 ^ 64

/-- Rust `usize` subtraction `a - b` with wrap-around (release-mode
overflow semantics; in debug mode the underflowing case panics, and every
use below turns the wrapped value into a panic anyway). -/
def usizeSub (a b : Nat) : Nat := (a + USIZE - b) % USIZE

/-- `DecoyMarking` from `src/models.rs`. -/
inductive DecoyMarking where
  | Target
  | Decoy
  | ReversedDecoy
deriving DecidableEq

/-- `DigestSlice` from `src/models.rs`: a zero-copy reference into a shared
sequence buffer (`ref_seq`), a half-open byte range, and a decoy marking.
The shared `Arc<str>` buffer is modelled as a list of characters. -/
structure DigestSlice where
  ref_seq : List Char
  rangeStart : Nat
  rangeEnd : Nat
  decoy : DecoyMarking
deriving DecidableEq

/-- `as_decoy_string` from `src/models.rs` (an identical copy lives in
`src/digest/digestion.rs`): reverse `sequence[1..len-1]` in place, keeping
the first and the last character.  The Rust function panics when the range
`1..len-1` is not a valid slice range of the string (a Rust slice `a..b` of
a string of length `len` requires `a ≤ b ∧ b ≤ len`; for `len = 0` the end
index `len - 1` wraps around in `usize`).  `none` models the panic. -/
def as_decoy_string (s : List Char) : Option (List Char) :=
  let len := s.length
  let e := usizeSub len 1
  if 1 ≤ e ∧ e ≤ len then
    some (s.take 1 ++ ((s.drop 1).take (e - 1)).reverse ++ s.drop e)
  else
    none

/-- The substring of the shared buffer referenced by a digest slice,
`&x.ref_seq[x.range]` in the source. -/
def DigestSlice.sub (d : DigestSlice) : List Char :=
  (d.ref_seq.drop d.rangeStart).take (d.rangeEnd - d.rangeStart)

/-- Whether `d.range` is a valid slice range of `d.ref_seq`; Rust panics on
indexing otherwise. -/
def DigestSlice.rangeValid (d : DigestSlice) : Prop :=
  d.rangeStart ≤ d.rangeEnd ∧ d.rangeEnd ≤ d.ref_seq.length

instance (d : DigestSlice) : Decidable d.rangeValid := by
  unfold DigestSlice.rangeValid; infer_instance

/-- `impl From<DigestSlice> for String` from `src/models.rs`:
materialization of a digest slice.  Target and ReversedDecoy slices
materialize verbatim; Decoy slices materialize through `as_decoy_string`.
`none` models a panic (out-of-bounds range, or `as_decoy_string` on a
string of length below 2). -/
def digest_to_string (d : DigestSlice) : Option (List Char) :=
  if d.rangeValid then
    match d.decoy with
    | .Target => some d.sub
    | .ReversedDecoy => some d.sub
    | .Decoy => as_decoy_string d.sub
  else
    none

lemma usizeSub_one {n : Nat} (h1 : 1 ≤ n) (h2 : n < USIZE) :
    usizeSub n 1 = n - 1 := by
  unfold usizeSub
  have : n + USIZE - 1 = (n - 1) + USIZE := by omega
  rw [this, Nat.add_mod_right]
  exact Nat.mod_eq_of_lt (by omega)

/-- Helper: the `as_decoy_string` equation in the well-formed case. -/
lemma as_decoy_string_eq_of_two_le {s : List Char} (h2 : 2 ≤ s.length)
    (hlt : s.length < USIZE) :
    as_decoy_string s =
      some (s.take 1 ++ ((s.drop 1).take (s.length - 2)).reverse ++
        s.drop (s.length - 1)) := by
  unfold as_decoy_string
  simp only
  rw [usizeSub_one (by omega) hlt]
  rw [if_pos ⟨by omega, by omega⟩]
  have : s.length - 1 - 1 = s.length - 2 := by omega
  rw [this]

/-- Example slice from the repository's `test_decoy`: "PEPTIDEPINK",
whole range, marked Decoy. -/
def pinkDecoySlice : DigestSlice :=
  ⟨"PEPTIDEPINK".toList, 0, 11, .Decoy⟩

/-- C6: materializing a Decoy slice of length at least 2 yields the
referenced substring with its first and last characters unchanged and the
interior reversed; materializing a Target or ReversedDecoy slice yields
the referenced substring verbatim.  (The `length < 2^64` bound mirrors the
range of Rust's `usize` string lengths.) -/
theorem decoy_materialization (d : DigestSlice) (hv : d.rangeValid)
    (hlen : d.ref_seq.length < USIZE) :
    ((d.decoy = .Target ∨ d.decoy = .ReversedDecoy) →
      digest_to_string d = some d.sub) ∧
    (d.decoy = .Decoy → 2 ≤ d.sub.length →
      digest_to_string d =
        some (d.sub.take 1 ++ ((d.sub.drop 1).take (d.sub.length - 2)).reverse ++
          d.sub.drop (d.sub.length - 1))) := by
  constructor
  · rintro (h | h) <;> simp [digest_to_string, if_pos hv, h]
  · intro hd h2
    have hsub : d.sub.length < USIZE := by
      have : d.sub.length ≤ d.ref_seq.length := by
        unfold DigestSlice.sub
        simp [List.length_take, List.length_drop]
      omega
    simp only [digest_to_string, if_pos hv, hd]
    exact as_decoy_string_eq_of_two_le h2 hsub

/-- Witness for C6 at the repository's own example: the decoy
materialization of "PEPTIDEPINK" is "PNIPEDITPEK". -/
theorem decoy_materialization_witness :
    digest_to_string pinkDecoySlice = some "PNIPEDITPEK".toList := by
  have h := (decoy_materialization pinkDecoySlice (by decide)
    (by decide)).2 rfl (by decide)
  rw [h]
  decide

/-- C10: `as_decoy_string` panics (modelled as `none`) on every input of
length 0 or 1: the interior range `1..len-1` is not a valid slice range
there (for length 0 the end index underflows in `usize`; for length 1 the
range starts at 1 and ends at 0). -/
theorem as_decoy_string_short_panics (s : List Char)
    (h : s.length = 0 ∨ s.length = 1) :
    as_decoy_string s = none := by
  unfold as_decoy_string
  simp only
  rcases h with h | h <;> rw [h]
  · rw [if_neg]
    intro ⟨h1, h2⟩
    have he : usizeSub 0 1 = USIZE - 1 := by decide
    rw [he] at h2
    unfold USIZE at h2
    omega
  · rw [if_neg]
    intro ⟨h1, h2⟩
    have he : usizeSub 1 1 = 0 := by decide
    rw [he] at h1
    omega

/-- Witness for C10 at a concrete one-character input. -/
theorem as_decoy_string_short_panics_witness :
    as_decoy_string ['A'] = none :=
  as_decoy_string_short_panics ['A'] (Or.inr rfl)

/-! ## Deduplication (`deduplicate_digests`, src/models.rs) -/

/-- Materialize every slice of a list in order (`x.clone().into()` inside
the `retain` closure of `deduplicate_digests`); `none` models the panic
raised by the first slice whose materialization panics. -/
def materializeAll : List DigestSlice → Option (List (DigestSlice × List Char))
  | [] => some []
  | d :: rest => do
    let s ← digest_to_string d
    let r ← materializeAll rest
    some ((d, s) :: r)

/-- The `retain`-with-seen-set loop of `deduplicate_digests`: keep an
element iff its materialized string is not in the set of strings seen so
far; the string is inserted into the set either way. -/
def dedupKeyed (seen : List (List Char)) :
    List (DigestSlice × List Char) → List DigestSlice
  | [] => []
  | (d, s) :: rest =>
    if s ∈ seen then dedupKeyed (s :: seen) rest
    else d :: dedupKeyed (s :: seen) rest

/-- `deduplicate_digests` from `src/models.rs`: retain the slices whose
materialized string was not seen before.  `none` models a panic while
materializing some slice. -/
def deduplicate_digests (l : List DigestSlice) : Option (List DigestSlice) :=
  (materializeAll l).map (dedupKeyed [])

/-- Modelled from the spec's contract for the Deduplicator: keep the first
element of each group of content-equal (same materialized string) elements,
in input order; later members of a started group are dropped. -/
def firstOfEachGroup : List (DigestSlice × List Char) → List DigestSlice
  | [] => []
  | (d, s) :: rest =>
    d :: firstOfEachGroup (rest.filter fun p => decide (p.2 ≠ s))
termination_by l => l.length
decreasing_by
  simp only [List.length_cons]
  exact Nat.lt_succ_of_le (List.length_filter_le _ _)

lemma materializeAll_eq_some {l : List DigestSlice}
    {pl : List (DigestSlice × List Char)} (h : materializeAll l = some pl) :
    pl.map Prod.fst = l ∧ ∀ p ∈ pl, digest_to_string p.1 = some p.2 := by
  induction l generalizing pl with
  | nil =>
    simp only [materializeAll] at h
    cases h
    simp
  | cons d rest ih =>
    simp only [materializeAll, bind, Option.bind] at h
    cases hd : digest_to_string d with
    | none => rw [hd] at h; cases h
    | some s =>
      rw [hd] at h
      cases hr : materializeAll rest with
      | none => rw [hr] at h; cases h
      | some r =>
        rw [hr] at h
        simp only [Option.some.injEq] at h
        subst h
        obtain ⟨ih1, ih2⟩ := ih hr
        refine ⟨by simp [ih1], ?_⟩
        intro p hp
        rcases List.mem_cons.mp hp with hp | hp
        · subst hp; simpa using hd
        · exact ih2 p hp

lemma materializeAll_of_consistent {pl : List (DigestSlice × List Char)}
    (h : ∀ p ∈ pl, digest_to_string p.1 = some p.2) :
    materializeAll (pl.map Prod.fst) = some pl := by
  induction pl with
  | nil => simp [materializeAll]
  | cons p rest ih =>
    have hp : digest_to_string p.1 = some p.2 := h p (by simp)
    have hr := ih (fun q hq => h q (by simp [hq]))
    simp only [List.map_cons, materializeAll, bind, Option.bind, hp, hr]

lemma dedupKeyed_eq_firstOfEachGroup
    (pl : List (DigestSlice × List Char)) (seen : List (List Char)) :
    dedupKeyed seen pl =
      firstOfEachGroup (pl.filter fun p => decide (p.2 ∉ seen)) := by
  induction pl generalizing seen with
  | nil => simp [dedupKeyed, firstOfEachGroup]
  | cons p rest ih =>
    obtain ⟨d, s⟩ := p
    by_cases hs : s ∈ seen
    · rw [dedupKeyed, if_pos hs, ih (s :: seen)]
      have hfe : rest.filter (fun p => decide (p.2 ∉ s :: seen)) =
          rest.filter (fun p => decide (p.2 ∉ seen)) := by
        apply List.filter_congr
        intro q _
        simp only [decide_eq_decide, List.mem_cons, not_or]
        constructor
        · rintro ⟨_, hq⟩; exact hq
        · intro hq
          exact ⟨fun he => hq (he ▸ hs), hq⟩
      rw [hfe]
      have : (List.filter (fun p => decide (p.2 ∉ seen)) ((d, s) :: rest)) =
          rest.filter (fun p => decide (p.2 ∉ seen)) := by
        rw [List.filter_cons]
        simp [hs]
      rw [this]
    · rw [dedupKeyed, if_neg hs, ih (s :: seen)]
      have : (List.filter (fun p => decide (p.2 ∉ seen)) ((d, s) :: rest)) =
          (d, s) :: rest.filter (fun p => decide (p.2 ∉ seen)) := by
        rw [List.filter_cons]
        simp [hs]
      rw [this, firstOfEachGroup]
      congr 1
      refine congrArg firstOfEachGroup ?_
      rw [List.filter_filter]
      apply List.filter_congr
      intro q _
      by_cases h1 : q.2 = s <;> by_cases h2 : q.2 ∈ seen <;>
        simp [h1, h2]

lemma dedupKeyed_selection (pl : List (DigestSlice × List Char))
    (seen : List (List Char)) :
    ∃ sel : List (DigestSlice × List Char),
      sel.Sublist pl ∧ dedupKeyed seen pl = sel.map Prod.fst ∧
      (sel.map Prod.snd).Nodup ∧ ∀ p ∈ sel, p.2 ∉ seen := by
  induction pl generalizing seen with
  | nil => exact ⟨[], by simp [dedupKeyed]⟩
  | cons p rest ih =>
    obtain ⟨d, s⟩ := p
    by_cases hs : s ∈ seen
    · obtain ⟨sel, h1, h2, h3, h4⟩ := ih (s :: seen)
      refine ⟨sel, h1.cons _, by rw [dedupKeyed, if_pos hs]; exact h2, h3, ?_⟩
      intro q hq
      have := h4 q hq
      simp only [List.mem_cons, not_or] at this
      exact this.2
    · obtain ⟨sel, h1, h2, h3, h4⟩ := ih (s :: seen)
      refine ⟨(d, s) :: sel, h1.cons₂ _, ?_, ?_, ?_⟩
      · rw [dedupKeyed, if_neg hs]
        simp [h2]
      · simp only [List.map_cons, List.nodup_cons]
        refine ⟨?_, h3⟩
        intro hmem
        obtain ⟨q, hq, hq2⟩ := List.mem_map.mp hmem
        have := h4 q hq
        simp [hq2] at this
      · intro q hq
        rcases List.mem_cons.mp hq with hq | hq
        · subst hq; simpa using hs
        · have := h4 q hq
          simp only [List.mem_cons, not_or] at this
          exact this.2

lemma dedupKeyed_of_nodup (sel : List (DigestSlice × List Char))
    (seen : List (List Char)) (hnd : (sel.map Prod.snd).Nodup)
    (hout : ∀ p ∈ sel, p.2 ∉ seen) :
    dedupKeyed seen sel = sel.map Prod.fst := by
  induction sel generalizing seen with
  | nil => simp [dedupKeyed]
  | cons p rest ih =>
    obtain ⟨d, s⟩ := p
    rw [dedupKeyed, if_neg (hout (d, s) (by simp))]
    simp only [List.map_cons, List.cons.injEq, true_and]
    apply ih
    · have h2 := hnd
      simp only [List.map_cons, List.nodup_cons] at h2
      exact h2.2
    · intro q hq
      simp only [List.mem_cons, not_or]
      refine ⟨?_, hout q (by simp [hq])⟩
      intro he
      simp only [List.map_cons, List.nodup_cons] at hnd
      exact hnd.1 (he ▸ List.mem_map_of_mem Prod.snd hq)

/-- C8: `deduplicate_digests` is order-preserving (its output is a sublist
of its input), it keeps exactly the first slice of each group of
content-equal slices (it coincides with the spec-side first-of-each-group
selection on the materialized pairs), and it is idempotent. -/
theorem deduplicate_digests_first_occurrence (L out : List DigestSlice)
    (h : deduplicate_digests L = some out) :
    (∃ pl, materializeAll L = some pl ∧ out = firstOfEachGroup pl) ∧
    out.Sublist L ∧ deduplicate_digests out = some out := by
  unfold deduplicate_digests at h
  cases hm : materializeAll L with
  | none => rw [hm] at h; cases h
  | some pl =>
    rw [hm] at h
    rw [Option.map_some', Option.some.injEq] at h
    obtain ⟨hfst, hcons⟩ := materializeAll_eq_some hm
    obtain ⟨sel, hsub, hsel, hnd, -⟩ := dedupKeyed_selection pl []
    have hout_sel : out = sel.map Prod.fst := by rw [← h, hsel]
    refine ⟨⟨pl, rfl, ?_⟩, ?_, ?_⟩
    · rw [← h, dedupKeyed_eq_firstOfEachGroup]
      exact congrArg firstOfEachGroup
        (List.filter_eq_self.mpr (fun a _ => by simp))
    · rw [hout_sel, ← hfst]
      exact hsub.map Prod.fst
    · have hsel_cons : ∀ p ∈ sel, digest_to_string p.1 = some p.2 :=
        fun p hp => hcons p (hsub.mem hp)
      unfold deduplicate_digests
      rw [hout_sel, materializeAll_of_consistent hsel_cons]
      rw [Option.map_some', Option.some.injEq]
      exact dedupKeyed_of_nodup sel [] hnd (by simp)

/-- Witness for C8 at the repository's own `test_deduplicate_digests`
example: three slices whose strings are "PEPTIDEPINKTOMATOTOMATO",
"PEPTIDEPINKTOMATO", "PEPTIDEPINKTOMATO"; the deduplicated list keeps the
first two and is itself a fixed point. -/
theorem deduplicate_digests_first_occurrence_witness :
    List.Sublist
        [(⟨"PEPTIDEPINKTOMATOTOMATO".toList, 0, 23, .Target⟩ : DigestSlice),
         ⟨"PEPTIDEPINKTOMATOTOMATO".toList, 0, 17, .Target⟩]
        [⟨"PEPTIDEPINKTOMATOTOMATO".toList, 0, 23, .Target⟩,
         ⟨"PEPTIDEPINKTOMATOTOMATO".toList, 0, 17, .Target⟩,
         ⟨"PEPTIDEPINKTOMATO".toList, 0, 17, .Target⟩] ∧
    deduplicate_digests
        [⟨"PEPTIDEPINKTOMATOTOMATO".toList, 0, 23, .Target⟩,
         ⟨"PEPTIDEPINKTOMATOTOMATO".toList, 0, 17, .Target⟩] =
      some [⟨"PEPTIDEPINKTOMATOTOMATO".toList, 0, 23, .Target⟩,
         ⟨"PEPTIDEPINKTOMATOTOMATO".toList, 0, 17, .Target⟩] := by
  have h := deduplicate_digests_first_occurrence
    [⟨"PEPTIDEPINKTOMATOTOMATO".toList, 0, 23, .Target⟩,
     ⟨"PEPTIDEPINKTOMATOTOMATO".toList, 0, 17, .Target⟩,
     ⟨"PEPTIDEPINKTOMATO".toList, 0, 17, .Target⟩]
    [⟨"PEPTIDEPINKTOMATOTOMATO".toList, 0, 23, .Target⟩,
     ⟨"PEPTIDEPINKTOMATOTOMATO".toList, 0, 17, .Target⟩]
    (by decide)
  exact ⟨h.2.1, h.2.2⟩

/-! ## Digestion (`cleavage_sites`, `digest`; src/digest/digestion.rs) -/

/-- `DigestionEnd` from `src/digest/digestion.rs`. -/
inductive DigestionEnd where
  | CTerm
  | NTerm
deriving DecidableEq

/-- `DigestionPattern` from `src/digest/digestion.rs`.  The `regex` field
is, in every pattern the program constructs (`trypsin`,
`trypsin_norestriction`), a one-character class such as `([KR])`; it is
modelled as the membership test of that class.  (`skip_prefix` is modelled
by the field `skipPrefixCh`.) -/
structure DigestionPattern where
  trigger : Char → Bool
  skipSuffix : Option Char
  skipPrefixCh : Option Char

/-- `DigestionParameters` from `src/digest/digestion.rs`. -/
structure DigestionParameters where
  minLength : Nat
  maxLength : Nat
  pattern : DigestionPattern
  digestionEnd : DigestionEnd
  maxMissedCleavages : Nat

/-- `regex.find_iter` for a one-character class: the matches are the
positions holding a trigger character, left to right, each of width 1. -/
def matchesGo (t : Char → Bool) (i : Nat) : List Char → List (Nat × Nat)
  | [] => []
  | c :: rest =>
    if t c then (i, i + 1) :: matchesGo t (i + 1) rest
    else matchesGo t (i + 1) rest

/-- All matches of the trigger class in a sequence. -/
def charClassMatches (t : Char → Bool) (s : List Char) : List (Nat × Nat) :=
  matchesGo t 0 s

/-- The cleave-after exception test of `cleavage_sites`:
`right < sequence.len() && sequence[right..].starts_with(skip)`, i.e. the
character at index `right` equals the exception character. -/
def suffixSkip (pp : DigestionParameters) (s : List Char) (r : Nat) : Bool :=
  match pp.pattern.skipSuffix with
  | some c => decide (r < s.length ∧ s.get? r = some c)
  | none => false

/-- The cleave-before exception test of `cleavage_sites`:
`left > 0 && sequence[left - 1..].ends_with(skip)`.  The Rust slice
`sequence[left - 1..]` extends to the END of the string (it is non-empty
whenever this test is reached with `left > 0`), so `ends_with(skip)` tests
the final character of the whole sequence, not the character before the
boundary. -/
def prefixSkipB (pp : DigestionParameters) (s : List Char) (left : Nat) : Bool :=
  match pp.pattern.skipPrefixCh with
  | some c => decide (0 < left ∧ s.getLast? = some c)
  | none => false

/-- The scanning loop of `cleavage_sites`: for each regex match compute the
breakpoint (`right` = match end for CTerm, match start for NTerm), suppress
it if one of the exception tests fires (leaving `left` unchanged),
otherwise push `left..right` and advance `left`; finally push the tail
segment `left..len` when non-empty.  `boundaryOf` computes `right` from a
match. -/
def boundaryOf (pp : DigestionParameters) (m : Nat × Nat) : Nat :=
  match pp.digestionEnd with
  | .CTerm => m.2
  | .NTerm => m.1

def sitesGo (pp : DigestionParameters) (s : List Char) (left : Nat) :
    List (Nat × Nat) → List (Nat × Nat)
  | [] => if left < s.length then [(left, s.length)] else []
  | m :: rest =>
    if suffixSkip pp s (boundaryOf pp m) then sitesGo pp s left rest
    else if prefixSkipB pp s left then sitesGo pp s left rest
    else (left, boundaryOf pp m) :: sitesGo pp s (boundaryOf pp m) rest

/-- `cleavage_sites` from `src/digest/digestion.rs`. -/
def cleavage_sites (pp : DigestionParameters) (s : List Char) :
    List (Nat × Nat) :=
  sitesGo pp s 0 (charClassMatches pp.pattern.trigger s)

/-- `digest` from `src/digest/digestion.rs`: for each site index `i` and
each missed-cleavage count `j ≤ max_missed_cleavages`, the candidate
spanning `sites[i].start .. sites[i+j].end`, kept when its length is
within `[min_length, max_length]`. -/
def digest (pp : DigestionParameters) (s : List Char) : List DigestSlice :=
  let sites := cleavage_sites pp s
  let numSites := sites.length
  (List.range numSites).bind fun i =>
    (List.range (pp.maxMissedCleavages + 1)).filterMap fun j =>
      if numSites - 1 < i + j then none
      else
        let st := (sites.getD i (0, 0)).1
        let en := (sites.getD (i + j) (0, 0)).2
        let span := en - st
        if span < pp.minLength ∨ pp.maxLength < span then none
        else some ⟨s, st, en, .Target⟩

/-- The pushed sites form a contiguous chain starting at a given left
boundary: each site starts where the previous one ended. -/
def Chained : Nat → List (Nat × Nat) → Prop
  | _, [] => True
  | left, p :: rest => p.1 = left ∧ Chained p.2 rest

lemma matchesGo_mem (t : Char → Bool) (l : List Char) (i : Nat) :
    ∀ p ∈ matchesGo t i l, i ≤ p.1 ∧ p.2 = p.1 + 1 ∧ p.1 < i + l.length := by
  induction l generalizing i with
  | nil => simp [matchesGo]
  | cons c rest ih =>
    intro p hp
    rw [matchesGo] at hp
    by_cases hc : t c
    · rw [if_pos hc] at hp
      rcases List.mem_cons.mp hp with hp | hp
      · subst hp; simp
      · have := ih (i + 1) p hp
        simp only [List.length_cons]
        omega
    · rw [if_neg hc] at hp
      have := ih (i + 1) p hp
      simp only [List.length_cons]
      omega

lemma matchesGo_sorted (t : Char → Bool) (l : List Char) (i : Nat) :
    (matchesGo t i l).Pairwise fun p q => p.1 < q.1 := by
  induction l generalizing i with
  | nil => simp [matchesGo]
  | cons c rest ih =>
    rw [matchesGo]
    by_cases hc : t c
    · rw [if_pos hc]
      refine List.Pairwise.cons ?_ (ih (i + 1))
      intro q hq
      have := (matchesGo_mem t rest (i + 1) q hq).1
      omega
    · rw [if_neg hc]; exact ih (i + 1)

lemma sitesGo_facts (pp : DigestionParameters) (s : List Char) :
    ∀ (ms : List (Nat × Nat)) (left : Nat),
      (∀ p ∈ ms, p.1 < s.length ∧ p.2 = p.1 + 1) →
      (∀ p ∈ ms, left ≤ p.1) →
      (ms.Pairwise fun p q => p.1 < q.1) →
      left ≤ s.length →
      (∀ p ∈ sitesGo pp s left ms, p.1 ≤ p.2 ∧ p.2 ≤ s.length) ∧
      Chained left (sitesGo pp s left ms) := by
  intro ms
  induction ms with
  | nil =>
    intro left _ _ _ hls
    rw [sitesGo]
    by_cases h : left < s.length
    · rw [if_pos h]
      constructor
      · intro p hp
        rcases List.mem_cons.mp hp with hp | hp
        · subst hp; exact ⟨by omega, le_refl _⟩
        · simp at hp
      · exact ⟨rfl, trivial⟩
    · rw [if_neg h]; simp [Chained]
  | cons m rest ih =>
    intro left hmB hleft hsort hls
    have hm := hmB m (by simp)
    have hlm := hleft m (by simp)
    have hrest_mB : ∀ p ∈ rest, p.1 < s.length ∧ p.2 = p.1 + 1 :=
      fun p hp => hmB p (by simp [hp])
    have hrest_sort : rest.Pairwise fun p q => p.1 < q.1 := hsort.of_cons
    have hrest_gt : ∀ p ∈ rest, m.1 < p.1 :=
      fun p hp => List.rel_of_pairwise_cons hsort hp
    rw [sitesGo]
    have hlr : left ≤ boundaryOf pp m ∧ boundaryOf pp m ≤ s.length ∧
        ∀ p ∈ rest, boundaryOf pp m ≤ p.1 := by
      cases hE : pp.digestionEnd with
      | CTerm =>
        have hb : boundaryOf pp m = m.2 := by unfold boundaryOf; rw [hE]
        rw [hb]
        exact ⟨by omega, by omega, fun p hp => by
          have := hrest_gt p hp; omega⟩
      | NTerm =>
        have hb : boundaryOf pp m = m.1 := by unfold boundaryOf; rw [hE]
        rw [hb]
        exact ⟨hlm, by omega, fun p hp => le_of_lt (hrest_gt p hp)⟩
    by_cases h1 : suffixSkip pp s (boundaryOf pp m)
    · rw [if_pos h1]
      exact ih left hrest_mB (fun p hp => hleft p (by simp [hp]))
        hrest_sort hls
    · rw [if_neg h1]
      by_cases h2 : prefixSkipB pp s left
      · rw [if_pos h2]
        exact ih left hrest_mB (fun p hp => hleft p (by simp [hp]))
          hrest_sort hls
      · rw [if_neg h2]
        obtain ⟨ihB, ihC⟩ := ih (boundaryOf pp m) hrest_mB hlr.2.2
          hrest_sort hlr.2.1
        constructor
        · intro p hp
          rcases List.mem_cons.mp hp with hp | hp
          · subst hp; exact ⟨hlr.1, hlr.2.1⟩
          · exact ihB p hp
        · exact ⟨rfl, ihC⟩

lemma cleavage_sites_facts (pp : DigestionParameters) (s : List Char) :
    (∀ p ∈ cleavage_sites pp s, p.1 ≤ p.2 ∧ p.2 ≤ s.length) ∧
    Chained 0 (cleavage_sites pp s) := by
  refine sitesGo_facts pp s _ 0 ?_ ?_ ?_ (Nat.zero_le _)
  · intro p hp
    have := matchesGo_mem pp.pattern.trigger s 0 p hp
    omega
  · intro p _; exact Nat.zero_le _
  · exact matchesGo_sorted pp.pattern.trigger s 0

lemma getD_mem_of_lt {l : List (Nat × Nat)} {n : Nat} (h : n < l.length) :
    l.getD n (0, 0) ∈ l := by
  induction l generalizing n with
  | nil => simp at h
  | cons p rest ih =>
    cases n with
    | zero => simp [List.getD]
    | succ m =>
      rw [List.getD_cons_succ]
      exact List.mem_cons_of_mem _ (ih (by simpa using h))

lemma chained_link {l : List (Nat × Nat)} {left : Nat} (h : Chained left l) :
    ∀ k, k + 1 < l.length →
      (l.getD k (0, 0)).2 = (l.getD (k + 1) (0, 0)).1 := by
  induction l generalizing left with
  | nil => intro k hk; simp at hk
  | cons p rest ih =>
    obtain ⟨hp, hrest⟩ := h
    intro k hk
    cases k with
    | zero =>
      rw [List.getD_cons_zero, List.getD_cons_succ]
      simp only [List.length_cons] at hk
      cases rest with
      | nil => simp at hk
      | cons q tail =>
        obtain ⟨hq, -⟩ := hrest
        rw [List.getD_cons_zero, hq]
    | succ m =>
      rw [List.getD_cons_succ, List.getD_cons_succ]
      exact ih hrest m (by simpa using hk)

lemma chained_start_le_end {l : List (Nat × Nat)} {left : Nat}
    (hC : Chained left l) (hB : ∀ p ∈ l, p.1 ≤ p.2) :
    ∀ i m, i + m < l.length →
      (l.getD i (0, 0)).1 ≤ (l.getD (i + m) (0, 0)).2 := by
  intro i m
  induction m with
  | zero =>
    intro h
    exact hB _ (getD_mem_of_lt (by omega))
  | succ n ihn =>
    intro h
    have h1 : (l.getD i (0, 0)).1 ≤ (l.getD (i + n) (0, 0)).2 :=
      ihn (by omega)
    have h2 : (l.getD (i + n) (0, 0)).2 = (l.getD (i + n + 1) (0, 0)).1 :=
      chained_link hC (i + n) (by omega)
    have h3 : (l.getD (i + n + 1) (0, 0)).1 ≤ (l.getD (i + n + 1) (0, 0)).2 :=
      hB _ (getD_mem_of_lt (by omega))
    have : i + (n + 1) = i + n + 1 := by omega
    rw [this]
    omega

/-- C4: every candidate produced by `digest` references the input
sequence, has length within `[min_length, max_length]`, spans from
`sites[i].start` to `sites[i+j].end` for some site indices with
`j ≤ max_missed_cleavages`, and is a well-formed contiguous range of the
sequence (start ≤ end ≤ length). -/
theorem digest_candidates (pp : DigestionParameters) (s : List Char)
    (d : DigestSlice) (hd : d ∈ digest pp s) :
    d.ref_seq = s ∧ d.decoy = .Target ∧
    pp.minLength ≤ d.rangeEnd - d.rangeStart ∧
    d.rangeEnd - d.rangeStart ≤ pp.maxLength ∧
    d.rangeStart ≤ d.rangeEnd ∧ d.rangeEnd ≤ s.length ∧
    ∃ i j, j ≤ pp.maxMissedCleavages ∧
      i + j < (cleavage_sites pp s).length ∧
      d.rangeStart = ((cleavage_sites pp s).getD i (0, 0)).1 ∧
      d.rangeEnd = ((cleavage_sites pp s).getD (i + j) (0, 0)).2 := by
  unfold digest at hd
  simp only [List.mem_bind, List.mem_filterMap, List.mem_range] at hd
  obtain ⟨i, hi, j, hj, heq⟩ := hd
  by_cases hc1 : (cleavage_sites pp s).length - 1 < i + j
  · rw [if_pos hc1] at heq; cases heq
  · rw [if_neg hc1] at heq
    by_cases hc2 :
        ((cleavage_sites pp s).getD (i + j) (0, 0)).2 -
            ((cleavage_sites pp s).getD i (0, 0)).1 < pp.minLength ∨
          pp.maxLength <
            ((cleavage_sites pp s).getD (i + j) (0, 0)).2 -
              ((cleavage_sites pp s).getD i (0, 0)).1
    · rw [if_pos hc2] at heq; cases heq
    · rw [if_neg hc2] at heq
      obtain ⟨hB, hC⟩ := cleavage_sites_facts pp s
      have hij : i + j < (cleavage_sites pp s).length := by omega
      have hmono : ((cleavage_sites pp s).getD i (0, 0)).1 ≤
          ((cleavage_sites pp s).getD (i + j) (0, 0)).2 :=
        chained_start_le_end hC (fun p hp => (hB p hp).1) i j hij
      have hend : ((cleavage_sites pp s).getD (i + j) (0, 0)).2 ≤ s.length :=
        (hB _ (getD_mem_of_lt hij)).2
      cases heq
      push_neg at hc2
      exact ⟨rfl, rfl, hc2.1, hc2.2, hmono, hend,
        i, j, by omega, hij, rfl, rfl⟩

/-- Trypsin parameters from the repository's `test_digest`:
cleave after K or R unless followed by P, lengths 3..7, no missed
cleavages. -/
def trypsinParams : DigestionParameters :=
  { minLength := 3, maxLength := 7,
    pattern := { trigger := fun c => decide (c = 'K' ∨ c = 'R'),
                 skipSuffix := some 'P', skipPrefixCh := none },
    digestionEnd := .CTerm, maxMissedCleavages := 0 }

/-- Witness for C4 at the repository's `test_digest` example: the first
candidate of digesting "PEPTIKDEPINK" with trypsin has length 6 within
[3, 7] and spans a valid prefix of the sequence. -/
theorem digest_candidates_witness :
    (⟨"PEPTIKDEPINK".toList, 0, 6, .Target⟩ : DigestSlice).ref_seq =
        "PEPTIKDEPINK".toList ∧
    (⟨"PEPTIKDEPINK".toList, 0, 6, .Target⟩ : DigestSlice).decoy = .Target ∧
    trypsinParams.minLength ≤ 6 - 0 ∧ 6 - 0 ≤ trypsinParams.maxLength ∧
    0 ≤ 6 ∧ 6 ≤ "PEPTIKDEPINK".toList.length := by
  have h := digest_candidates trypsinParams "PEPTIKDEPINK".toList
    ⟨"PEPTIKDEPINK".toList, 0, 6, .Target⟩ (by decide)
  exact ⟨h.1, h.2.1, h.2.2.1, h.2.2.2.1, h.2.2.2.2.1, h.2.2.2.2.2.1⟩

/-- Cleave-before-K parameters with the cleave-before exception character
'P', for exercising the `skip_prefix` path of `cleavage_sites`. -/
def ntermSkipP : DigestionParameters :=
  { minLength := 1, maxLength := 100,
    pattern := { trigger := fun c => decide (c = 'K'),
                 skipSuffix := none, skipPrefixCh := some 'P' },
    digestionEnd := .NTerm, maxMissedCleavages := 0 }

/-- C5: evaluation of `cleavage_sites` on the `skip_prefix` path.  In
"PKAPKA" the breakpoint at index 4 IS immediately preceded by 'P'
(character index 3), yet it is NOT suppressed (sites split at 4); in
"PKAKAP" the breakpoint at index 3 is preceded by 'A', not 'P', yet it IS
suppressed (the final character of the sequence is 'P').  The code tests
`sequence[left-1..].ends_with(skip)` — the last character of the whole
sequence — instead of the character immediately before the boundary. -/
theorem cleavage_sites_skip_behavior :
    cleavage_sites ntermSkipP "PKAPKA".toList = [(0, 1), (1, 4), (4, 6)] ∧
    "PKAPKA".toList.get? 3 = some 'P' ∧
    cleavage_sites ntermSkipP "PKAKAP".toList = [(0, 1), (1, 6)] ∧
    "PKAKAP".toList.get? 2 = some 'A' := by
  refine ⟨?_, by decide, ?_, by decide⟩ <;> decide

/-! ## Fragment intensities (`SafePosition`, `fragment_mzs_from_linear_peptide`;
src/fragment_mass/fragment_mass_builder.rs) -/

/-- The rustyms `FragmentType` variants relevant to this program: the
lowercase peptide-backbone series `a`–`z` (each carrying a series
position), the uppercase glycan ions `B` and `Y` (distinct variants in
rustyms, carrying glycan positions that are irrelevant here), the
precursor pseudo-fragment, and the remaining variants collapsed into
`other`. -/
inductive FragmentType where
  | a (pos : Nat)
  | b (pos : Nat)
  | c (pos : Nat)
  | d (pos : Nat)
  | v (pos : Nat)
  | w (pos : Nat)
  | x (pos : Nat)
  | y (pos : Nat)
  | z (pos : Nat)
  | B
  | Y
  | precursor
  | other
deriving DecidableEq

/-- `SafePosition` from `src/fragment_mass/fragment_mass_builder.rs`:
series letter (as a byte), ordinal position, fragment charge. -/
structure SafePosition where
  series_id : Nat
  series_number : Nat
  charge : Nat
deriving DecidableEq

/-- `SafePosition::new` from `src/fragment_mass/fragment_mass_builder.rs`:
accepts the peptide series `a, b, c, d, x, y, z` (byte of the letter) and
the precursor (id 0); every other fragment type — including the glycan
ions `B` and `Y` — is rejected with an "Invalid fragment type" error,
modelled as `none`. -/
def safePositionNew (ft : FragmentType) (charge : Nat) : Option SafePosition :=
  match ft with
  | .a p => some ⟨97, p, charge⟩
  | .b p => some ⟨98, p, charge⟩
  | .c p => some ⟨99, p, charge⟩
  | .d p => some ⟨100, p, charge⟩
  | .x p => some ⟨120, p, charge⟩
  | .y p => some ⟨121, p, charge⟩
  | .z p => some ⟨122, p, charge⟩
  | .precursor => some ⟨0, 0, charge⟩
  | _ => none

/-- One theoretical fragment as returned by the rustyms generator: its ion
type, its (absolute) charge and its m/z value. -/
structure Fragment where
  ion : FragmentType
  charge : Nat
  mz : ℚ
deriving DecidableEq

/-- The expected-intensity match of `fragment_mzs_from_linear_peptide`:
`FragmentType::Y(_) => 1.0, FragmentType::B(_) => 0.5, _ => 0.01`.  Note
that `Y` and `B` here are the uppercase glycan variants of rustyms, not
the peptide `y`/`b` series. -/
def fragmentIntensity : FragmentType → ℚ
  | .Y => 1
  | .B => 1 / 2
  | _ => 1 / 100

/-- The per-fragment step of `fragment_mzs_from_linear_peptide`: build the
`(SafePosition, mz, intensity)` triple, failing on fragment types that
`SafePosition::new` rejects. -/
def fragmentEntry (f : Fragment) : Except Unit (SafePosition × ℚ × ℚ) :=
  match safePositionNew f.ion f.charge with
  | some sp => .ok (sp, f.mz, fragmentIntensity f.ion)
  | none => .error ()

/-- `fragment_mzs_from_linear_peptide` from
`src/fragment_mass/fragment_mass_builder.rs`, as a function of the
fragment list the rustyms generator returns: drop precursor
pseudo-fragments, then map each remaining fragment to its
`(SafePosition, mz, intensity)` triple (any invalid fragment type fails
the whole call). -/
def fragment_mzs_from_linear_peptide (frags : List Fragment) :
    Except Unit (List (SafePosition × ℚ × ℚ)) :=
  (frags.filter fun f =>
      match f.ion with
      | .precursor => false
      | _ => true).mapM fragmentEntry

/-- C2: under the default fragmentation model the generated fragments are
peptide `b`- and `y`-series ions; the code assigns EVERY such surviving
fragment the floor intensity 0.01 (never 1.0 for y nor 0.5 for b), because
the 1.0 and 0.5 match arms refer to the rustyms glycan variants `Y`/`B`,
which `SafePosition::new` rejects outright.  Evaluated at a b2/y2 fragment
pair at charge 1. -/
theorem fragment_intensity_all_floor :
    fragment_mzs_from_linear_peptide
        [⟨.b 2, 1, 300⟩, ⟨.y 2, 1, 400⟩] =
      .ok [(⟨98, 2, 1⟩, 300, 1 / 100), (⟨121, 2, 1⟩, 400, 1 / 100)] ∧
    fragmentIntensity (.y 2) = 1 / 100 ∧
    fragmentIntensity (.b 2) = 1 / 100 ∧
    safePositionNew .Y 1 = none ∧
    safePositionNew .B 1 = none := by
  refine ⟨?_, rfl, rfl, rfl, rfl⟩
  rfl

/-! ## Library-driven batch iterator (`Speclib`, `SpeclibIterator`;
src/data_sources/speclib.rs) -/

/-- `ElutionGroup` (from the timsquery crate) as used by this program:
the query record emitted per precursor charge state.  The two `HashMap`
fields are modelled as association lists of their key/value pairs. -/
structure ElutionGroup where
  id : Nat
  precursor_mzs : List ℚ
  mobility : ℚ
  rt_seconds : ℚ
  fragment_mzs : List (SafePosition × ℚ)
  expected_fragment_intensity : List (SafePosition × ℚ)
  expected_precursor_intensity : List ℚ
deriving DecidableEq

/-- `Speclib` from `src/data_sources/speclib.rs`: three parallel vectors. -/
structure Speclib where
  digests : List DigestSlice
  charges : List Nat
  queries : List ElutionGroup
deriving DecidableEq

/-- The three parallel vectors of a `Speclib` have equal length (this holds
for every `Speclib` the loaders construct, which push one element to each
vector per record). -/
def Speclib.wf (sp : Speclib) : Prop :=
  sp.charges.length = sp.digests.length ∧
  sp.queries.length = sp.digests.length

instance (sp : Speclib) : Decidable sp.wf := by
  unfold Speclib.wf; infer_instance

/-- `NamedQueryChunk` from `src/models.rs`: three parallel vectors of
equal length (asserted by `NamedQueryChunk::new`). -/
structure NamedQueryChunk where
  digests : List DigestSlice
  charges : List Nat
  queries : List ElutionGroup
deriving DecidableEq

/-- `NamedQueryChunk::len`: the number of queries. -/
def NamedQueryChunk.len (ch : NamedQueryChunk) : Nat := ch.queries.length

/-- `Speclib::get_chunk` from `src/data_sources/speclib.rs`: `none` when
`chunk_index * chunk_size` is past the end, otherwise the slice
`[start, min(start+chunk_size, len))` of all three vectors. -/
def Speclib.get_chunk (sp : Speclib) (chunkIndex chunkSize : Nat) :
    Option NamedQueryChunk :=
  let start := chunkIndex * chunkSize
  if sp.digests.length ≤ start then none
  else
    let e := min (start + chunkSize) sp.digests.length
    some ⟨(sp.digests.drop start).take (e - start),
      (sp.charges.drop start).take (e - start),
      (sp.queries.drop start).take (e - start)⟩

/-- `SpeclibIterator` from `src/data_sources/speclib.rs`. -/
structure SpeclibIterator where
  speclib : Speclib
  chunkSize : Nat
  maxIterations : Nat
  iterationIndex : Nat

/-- `SpeclibIterator::new`: note `max_iters = digests.len() / chunk_size`
(flooring integer division). -/
def SpeclibIterator.new (sp : Speclib) (chunkSize : Nat) : SpeclibIterator :=
  ⟨sp, chunkSize, sp.digests.length / chunkSize, 0⟩

/-- `Iterator::next` for `SpeclibIterator`: get the chunk at the current
index and increment the index. -/
def SpeclibIterator.next (it : SpeclibIterator) :
    Option NamedQueryChunk × SpeclibIterator :=
  (it.speclib.get_chunk it.iterationIndex it.chunkSize,
    { it with iterationIndex := it.iterationIndex + 1 })

/-- `ExactSizeIterator::len` for `SpeclibIterator`. -/
def SpeclibIterator.len (it : SpeclibIterator) : Nat := it.maxIterations

/-- All batches the iterator yields over its lifetime, in order: the
iterator calls `get_chunk 0, 1, 2, …` and `get_chunk i` is `some` exactly
for `i * chunkSize < n`, so every yield happens at an index at most `n`. -/
def Speclib.yieldedBatches (sp : Speclib) (chunkSize : Nat) :
    List NamedQueryChunk :=
  (List.range (sp.digests.length + 1)).filterMap
    fun i => sp.get_chunk i chunkSize

lemma get_chunk_len {sp : Speclib} {i k : Nat} {ch : NamedQueryChunk}
    (hwf : sp.wf) (h : sp.get_chunk i k = some ch) :
    i * k < sp.digests.length ∧
    ch.len = min (i * k + k) sp.digests.length - i * k := by
  unfold Speclib.get_chunk at h
  by_cases hlt : sp.digests.length ≤ i * k
  · rw [if_pos hlt] at h; cases h
  · rw [if_neg hlt] at h
    simp only [Option.some.injEq] at h
    subst h
    refine ⟨by omega, ?_⟩
    obtain ⟨hcg, hq⟩ := hwf
    simp only [NamedQueryChunk.len, List.length_take, List.length_drop]
    omega

lemma get_chunk_none_iff {sp : Speclib} {i k : Nat} :
    sp.get_chunk i k = none ↔ sp.digests.length ≤ i * k := by
  unfold Speclib.get_chunk
  by_cases hlt : sp.digests.length ≤ i * k
  · simp [if_pos hlt, hlt]
  · simp [if_neg hlt, hlt]

lemma yielded_sum_upto (sp : Speclib) (k : Nat) (hwf : sp.wf)
    (hk : 1 ≤ k) :
    ∀ m, ((((List.range m).filterMap fun i => sp.get_chunk i k).map
        NamedQueryChunk.len).sum) = min (m * k) sp.digests.length := by
  intro m
  induction m with
  | zero => simp
  | succ n ihn =>
    rw [List.range_succ, List.filterMap_append, List.map_append,
      List.sum_append, ihn]
    cases hc : sp.get_chunk n k with
    | none =>
      have := get_chunk_none_iff.mp hc
      simp only [List.filterMap_cons, hc, List.filterMap_nil, List.map_nil,
        List.sum_nil]
      have h1 : n * k ≥ sp.digests.length := this
      have h2 : (n + 1) * k = n * k + k := by ring
      omega
    | some ch =>
      obtain ⟨hlt, hlen⟩ := get_chunk_len hwf hc
      simp only [List.filterMap_cons, hc, List.filterMap_nil,
        List.map_cons, List.map_nil, List.sum_cons, List.sum_nil]
      have h2 : (n + 1) * k = n * k + k := by ring
      omega

/-- C7: for a well-formed speclib of `n` records and any chunk size
`k ≥ 1`: every batch `get_chunk` yields is non-empty and has at most `k`
elements; a batch shorter than `k` is the final one (the next index yields
`none`); once `none` is returned every later index also returns `none`;
and the batch sizes over the whole iteration sum to exactly `n`. -/
theorem speclib_batch_contract (sp : Speclib) (k : Nat)
    (hwf : sp.wf) (hk : 1 ≤ k) :
    (∀ i ch, sp.get_chunk i k = some ch →
      0 < ch.len ∧ ch.len ≤ k ∧
      (ch.len < k → sp.get_chunk (i + 1) k = none)) ∧
    (∀ i, sp.get_chunk i k = none → sp.get_chunk (i + 1) k = none) ∧
    ((sp.yieldedBatches k).map NamedQueryChunk.len).sum =
      sp.digests.length := by
  refine ⟨?_, ?_, ?_⟩
  · intro i ch hch
    obtain ⟨hlt, hlen⟩ := get_chunk_len hwf hch
    refine ⟨by omega, by omega, ?_⟩
    intro hshort
    rw [get_chunk_none_iff]
    have h2 : (i + 1) * k = i * k + k := by ring
    omega
  · intro i hi
    rw [get_chunk_none_iff] at hi ⊢
    have h2 : (i + 1) * k = i * k + k := by ring
    have : i * k ≤ (i + 1) * k := by omega
    omega
  · unfold Speclib.yieldedBatches
    rw [yielded_sum_upto sp k hwf hk]
    have : sp.digests.length + 1 ≤ (sp.digests.length + 1) * k := by
      calc sp.digests.length + 1 = (sp.digests.length + 1) * 1 := by ring
        _ ≤ (sp.digests.length + 1) * k := Nat.mul_le_mul_left _ hk
    omega

/-- A minimal concrete `ElutionGroup`. -/
def egSimple (n : Nat) : ElutionGroup := ⟨n, [], 0, 0, [], [], []⟩

/-- A concrete three-record speclib. -/
def sp3 : Speclib :=
  ⟨[⟨"AAA".toList, 0, 3, .Target⟩, ⟨"CCC".toList, 0, 3, .Target⟩,
    ⟨"DDD".toList, 0, 3, .Target⟩],
   [2, 2, 2],
   [egSimple 0, egSimple 1, egSimple 2]⟩

/-- Witness for C7 at the concrete three-record speclib with chunk size 2:
the yielded batch sizes sum to the record count 3. -/
theorem speclib_batch_contract_witness :
    ((sp3.yieldedBatches 2).map NamedQueryChunk.len).sum =
      sp3.digests.length :=
  (speclib_batch_contract sp3 2 (by decide) (by decide)).2.2

/-- C3: `SpeclibIterator::new` sets `max_iterations = n / chunk_size`
(flooring division), so `len()` under-reports the batch count whenever
`chunk_size` does not divide `n`: for 3 records and chunk size 2, `len()`
returns 1, yet `next()` yields batches at indices 0 and 1 (two batches)
before returning `None` at index 2 — the true count is `ceil(3/2) = 2`. -/
theorem speclib_len_floor_mismatch :
    (SpeclibIterator.new sp3 2).len = 1 ∧
    (sp3.yieldedBatches 2).length = 2 ∧
    ((SpeclibIterator.new sp3 2).next.1).isSome = true ∧
    ((SpeclibIterator.new sp3 2).next.2.next.1).isSome = true ∧
    (SpeclibIterator.new sp3 2).next.2.next.2.next.1 = none := by
  refine ⟨rfl, ?_, rfl, rfl, ?_⟩ <;> decide

/-! ## Sequence-to-query conversion (`SequenceToElutionGroupConverter`;
src/fragment_mass/elution_group_converter.rs) -/

/-- The window/charge configuration of `SequenceToElutionGroupConverter`. -/
structure ConverterCfg where
  chargeLo : Nat
  chargeHi : Nat
  max_precursor_mz : ℚ
  min_precursor_mz : ℚ
  max_fragment_mz : ℚ
  min_fragment_mz : ℚ

deriving instance DecidableEq for Except

/-- The `Default` configuration: charges 2..=3, precursor window
[400, 1000], fragment window [200, 2000]. -/
def converterDefault : ConverterCfg :=
  ⟨2, 3, 1000, 400, 2000, 200⟩

/-- `PROTON_MASS` (`1.007276466`), as an exact rational. -/
def protonMass : ℚ := 1007276466 / 1000000000

/-- `NEUTRON_MASS` (`1.00`). -/
def neutronMass : ℚ := 1

/-- The chemistry collaborator's answers for one peptide sequence
(external rustyms crate, abstracted): how many formulas
`peptide.formulas()` returns (the code rejects a peptide with more than
one), the monoisotopic mass of the first formula, the isotope-envelope
intensities predicted from its carbon/sulphur counts
(`peptide_isotopes`, crate::isotopes), and the fragment triples returned
by `fragment_mzs_from_linear_peptide` at each precursor charge. -/
structure ChemPeptide where
  formulaCount : Nat
  monoMass : ℚ
  iso1 : ℚ
  iso2 : ℚ
  iso3 : ℚ
  fragGen : Nat → Except Unit (List (SafePosition × ℚ × ℚ))

/-- The inclusive charge range `precursor_charge_range.clone()` iterated by
the conversion loop. -/
def chargeList (cfg : ConverterCfg) : List Nat :=
  (List.range (cfg.chargeHi + 1 - cfg.chargeLo)).map (· + cfg.chargeLo)

/-- `expected_prec_inten`: four slots initialized to `1e-3`, slots 1–3
overwritten with the `peptide_isotopes` values. -/
def expectedPrecInten (chem : ChemPeptide) : List ℚ :=
  [1 / 1000, chem.iso1, chem.iso2, chem.iso3]

/-- The per-charge loop of `convert_sequence`: for each charge compute
`precursor_mz = (mono + c·proton)/c` and the isotope spacing
`nmf = neutron/c`; skip the charge when `precursor_mz` is outside the
precursor window; otherwise obtain the fragment triples (any error aborts
the whole call, as `?` does), retain fragments with
`min_fragment_mz < mz < max_fragment_mz`, and emit the query with
precursor isotope vector `[mz − nmf, mz, mz + nmf, mz + 2·nmf]`.
`mob` abstracts `supersimpleprediction` (floating-point). -/
def convertGo (cfg : ConverterCfg) (chem : ChemPeptide)
    (mob : ℚ → Nat → ℚ) (id : Nat) :
    List Nat → Except Unit (List ElutionGroup × List Nat)
  | [] => .ok ([], [])
  | charge :: rest =>
    let precursorMz := (chem.monoMass + charge * protonMass) / charge
    let nmf := neutronMass / charge
    if precursorMz < cfg.min_precursor_mz ∨
        cfg.max_precursor_mz < precursorMz then
      convertGo cfg chem mob id rest
    else
      match chem.fragGen charge with
      | .error e => .error e
      | .ok frags =>
        let kept := frags.filter fun t =>
          decide (cfg.min_fragment_mz < t.2.1 ∧ t.2.1 < cfg.max_fragment_mz)
        let eg : ElutionGroup :=
          { id := id
            precursor_mzs := [precursorMz - nmf, precursorMz,
              precursorMz + nmf, precursorMz + 2 * nmf]
            mobility := mob precursorMz charge
            rt_seconds := 0
            fragment_mzs := kept.map fun t => (t.1, t.2.1)
            expected_fragment_intensity := kept.map fun t => (t.1, t.2.2)
            expected_precursor_intensity := expectedPrecInten chem }
        match convertGo cfg chem mob id rest with
        | .error e => .error e
        | .ok (egs, crgs) => .ok (eg :: egs, charge :: crgs)

/-- `convert_sequence` from
`src/fragment_mass/elution_group_converter.rs`: reject a peptide whose
`formulas()` has more than one entry ("multiple formulas" error), then run
the per-charge loop.  The `pep : Except Unit ChemPeptide` argument models
`LinearPeptide::pro_forma(sequence)?`, whose parse error propagates. -/
def convert_sequence (cfg : ConverterCfg) (mob : ℚ → Nat → ℚ)
    (pep : Except Unit ChemPeptide) (id : Nat) :
    Except Unit (List ElutionGroup × List Nat) :=
  match pep with
  | .error e => .error e
  | .ok chem =>
    if 1 < chem.formulaCount then .error ()
    else convertGo cfg chem mob id (chargeList cfg)

/-- C1 (amended): every query `convert_sequence` emits has all fragment
m/z values within the closed fragment window and its MONOISOTOPIC
precursor m/z (slot 1 of the isotope vector) within the closed precursor
window.  (The isotope-shifted slots 0, 2, 3 are offset by `nmf` after the
window check and may lie outside; see the counterexample.)  The per-charge
loop part is this lemma. -/
lemma convertGo_window (cfg : ConverterCfg) (chem : ChemPeptide)
    (mob : ℚ → Nat → ℚ) (id : Nat) :
    ∀ (cl : List Nat) (out : List ElutionGroup × List Nat),
      convertGo cfg chem mob id cl = .ok out →
      ∀ eg ∈ out.1,
        (∀ p ∈ eg.fragment_mzs,
          cfg.min_fragment_mz ≤ p.2 ∧ p.2 ≤ cfg.max_fragment_mz) ∧
        (∃ m, eg.precursor_mzs.get? 1 = some m ∧
          cfg.min_precursor_mz ≤ m ∧ m ≤ cfg.max_precursor_mz) := by
  intro cl
  induction cl with
  | nil =>
    intro out hout
    rw [convertGo] at hout
    cases hout
    simp
  | cons charge rest ih =>
    intro out hout
    rw [convertGo] at hout
    simp only at hout
    by_cases hskip :
        (chem.monoMass + charge * protonMass) / charge <
            cfg.min_precursor_mz ∨
          cfg.max_precursor_mz <
            (chem.monoMass + charge * protonMass) / charge
    · rw [if_pos hskip] at hout
      exact ih out hout
    · rw [if_neg hskip] at hout
      cases hfg : chem.fragGen charge with
      | error e => rw [hfg] at hout; cases hout
      | ok frags =>
        rw [hfg] at hout
        cases hrest : convertGo cfg chem mob id rest with
        | error e => rw [hrest] at hout; cases hout
        | ok tailOut =>
          obtain ⟨egs, crgs⟩ := tailOut
          rw [hrest] at hout
          simp only [Except.ok.injEq] at hout
          subst hout
          intro eg heg
          rcases List.mem_cons.mp heg with heg | heg
          · subst heg
            push_neg at hskip
            constructor
            · intro p hp
              simp only [List.mem_map] at hp
              obtain ⟨t, ht, hpt⟩ := hp
              have hf := List.of_mem_filter ht
              rw [decide_eq_true_eq] at hf
              subst hpt
              exact ⟨le_of_lt hf.1, le_of_lt hf.2⟩
            · exact ⟨_, rfl, hskip.1, hskip.2⟩
          · exact ih (egs, crgs) hrest eg heg

/-- C1 (amended): every query `convert_sequence` emits has all fragment
m/z values within the closed fragment window and its MONOISOTOPIC
precursor m/z (slot 1 of the isotope vector) within the closed precursor
window; the isotope-shifted slots 0, 2, 3 may lie outside. -/
theorem convert_sequence_window (cfg : ConverterCfg) (mob : ℚ → Nat → ℚ)
    (pep : Except Unit ChemPeptide) (id : Nat)
    (out : List ElutionGroup × List Nat)
    (hout : convert_sequence cfg mob pep id = .ok out) :
    ∀ eg ∈ out.1,
      (∀ p ∈ eg.fragment_mzs,
        cfg.min_fragment_mz ≤ p.2 ∧ p.2 ≤ cfg.max_fragment_mz) ∧
      (∃ m, eg.precursor_mzs.get? 1 = some m ∧
        cfg.min_precursor_mz ≤ m ∧ m ≤ cfg.max_precursor_mz) := by
  cases pep with
  | error e => simp [convert_sequence] at hout
  | ok chem =>
    have heq : convert_sequence cfg mob (.ok chem) id =
        if 1 < chem.formulaCount then .error ()
        else convertGo cfg chem mob id (chargeList cfg) := rfl
    rw [heq] at hout
    by_cases hfc : 1 < chem.formulaCount
    · rw [if_pos hfc] at hout; cases hout
    · rw [if_neg hfc] at hout
      exact convertGo_window cfg chem mob id (chargeList cfg) out hout

/-- A concrete chemistry answer whose monoisotopic mass puts the charge-2
precursor exactly at the lower window edge (m/z 400): the mass is
`800 − 2·protonMass`. -/
def chemEdge : ChemPeptide :=
  ⟨1, 800 - 2 * protonMass, 0, 0, 0, fun _ => .ok []⟩

/-- A trivial mobility predictor standing in for `supersimpleprediction`
in concrete evaluations (no claim depends on the predicted value). -/
def mobZero : ℚ → Nat → ℚ := fun _ _ => 0

/-- The single query `convert_sequence` emits at `chemEdge` under the
default configuration (charge 2; charge 3 is skipped below the window). -/
def egEdge : ElutionGroup :=
  ⟨0, [799 / 2, 400, 801 / 2, 401], 0, 0, [], [], [1 / 1000, 0, 0, 0]⟩

/-- Evaluation of `convert_sequence` at `chemEdge`: one query, at
charge 2 (charge 3 falls below the precursor window). -/
lemma convert_edge_eval :
    convert_sequence converterDefault mobZero (.ok chemEdge) 0 =
      .ok ([egEdge], [2]) := by
  have hcl : chargeList converterDefault = [2, 3] := by decide
  simp only [convert_sequence]
  rw [if_neg (by norm_num [chemEdge]), hcl]
  norm_num [convertGo, chemEdge, converterDefault, protonMass,
    neutronMass, expectedPrecInten, egEdge, mobZero]

/-- Witness for C1 (amended) at `chemEdge` under the default
configuration: the emitted query's monoisotopic precursor m/z slot
holds 400, inside the [400, 1000] window. -/
theorem convert_sequence_window_witness :
    egEdge.precursor_mzs.get? 1 = some 400 ∧
    converterDefault.min_precursor_mz ≤ 400 ∧
    (400 : ℚ) ≤ converterDefault.max_precursor_mz := by
  have h := convert_sequence_window converterDefault mobZero
    (.ok chemEdge) 0 ([egEdge], [2]) convert_edge_eval egEdge (by simp)
  obtain ⟨-, m, hm, h1, h2⟩ := h
  have hm400 : egEdge.precursor_mzs.get? 1 = some 400 := rfl
  have hmm : m = 400 :=
    (Option.some_inj.mp (hm400.symm.trans hm)).symm
  subst hmm
  exact ⟨hm400, h1, h2⟩

/-- C1 counterexample: at `chemEdge` (charge-2 precursor m/z exactly 400,
the window minimum) `convert_sequence` emits the query `egEdge`, whose
isotope-(−1) entry is `400 − 1/2 = 799/2`, strictly below the precursor
window minimum 400 — the claim that EVERY entry of the 4-element isotope
vector lies within the window is false. -/
theorem convert_sequence_isotope_outside_window :
    convert_sequence converterDefault mobZero (.ok chemEdge) 0 =
      .ok ([egEdge], [2]) ∧
    egEdge.precursor_mzs.get? 0 = some (799 / 2) ∧
    (799 / 2 : ℚ) < converterDefault.min_precursor_mz := by
  refine ⟨convert_edge_eval, rfl, ?_⟩
  norm_num [converterDefault]

/-- The output group of one sequence inside `convert_sequences`: the
queries and charges of its `convert_sequence` call at its enumeration
index, or the empty group when the call fails (the failure is logged and
the sequence skipped).  `oracle` abstracts the chemistry collaborator,
answering per materialized sequence string. -/
def seqGroup (cfg : ConverterCfg) (mob : ℚ → Nat → ℚ)
    (oracle : List Char → Except Unit ChemPeptide) (i : Nat)
    (d : DigestSlice) : List ElutionGroup × List Nat :=
  match digest_to_string d with
  | none => ([], [])
  | some s =>
    match convert_sequence cfg mob (oracle s) i with
    | .error _ => ([], [])
    | .ok g => g

/-- The enumerated flat-map loop of `convert_sequences`: materialize each
slice (a materialization panic is `none`), convert it at its enumeration
index, skip it on a conversion error, and otherwise contribute
`(replicate #queries slice, queries, charges)`. -/
def convertSequencesGo (cfg : ConverterCfg) (mob : ℚ → Nat → ℚ)
    (oracle : List Char → Except Unit ChemPeptide) :
    Nat → List DigestSlice →
      Option (List DigestSlice × List ElutionGroup × List Nat)
  | _, [] => some ([], [], [])
  | i, d :: rest =>
    match digest_to_string d with
    | none => none
    | some s =>
      match convertSequencesGo cfg mob oracle (i + 1) rest with
      | none => none
      | some r =>
        match convert_sequence cfg mob (oracle s) i with
        | .error _ => some r
        | .ok (egs, crgs) =>
          some (List.replicate egs.length d ++ r.1, egs ++ r.2.1,
            crgs ++ r.2.2)

/-- `convert_sequences` from
`src/fragment_mass/elution_group_converter.rs`: run the per-sequence loop
and wrap the collected triple in `Ok` (the function's only `return` is
`Ok((seqs, eg, crg))`; per-sequence errors are only logged). -/
def convert_sequences (cfg : ConverterCfg) (mob : ℚ → Nat → ℚ)
    (oracle : List Char → Except Unit ChemPeptide)
    (slices : List DigestSlice) :
    Option (Except Unit (List DigestSlice × List ElutionGroup × List Nat)) :=
  (convertSequencesGo cfg mob oracle 0 slices).map .ok

lemma convertGo_lengths (cfg : ConverterCfg) (chem : ChemPeptide)
    (mob : ℚ → Nat → ℚ) (id : Nat) :
    ∀ (cl : List Nat) (egs : List ElutionGroup) (crgs : List Nat),
      convertGo cfg chem mob id cl = .ok (egs, crgs) →
      crgs.length = egs.length := by
  intro cl
  induction cl with
  | nil =>
    intro egs crgs h
    rw [convertGo] at h
    cases h
    rfl
  | cons charge rest ih =>
    intro egs crgs h
    rw [convertGo] at h
    simp only at h
    by_cases hskip :
        (chem.monoMass + charge * protonMass) / charge <
            cfg.min_precursor_mz ∨
          cfg.max_precursor_mz <
            (chem.monoMass + charge * protonMass) / charge
    · rw [if_pos hskip] at h
      exact ih egs crgs h
    · rw [if_neg hskip] at h
      cases hfg : chem.fragGen charge with
      | error e => rw [hfg] at h; cases h
      | ok frags =>
        rw [hfg] at h
        cases hrest : convertGo cfg chem mob id rest with
        | error e => rw [hrest] at h; cases h
        | ok tailOut =>
          obtain ⟨egs0, crgs0⟩ := tailOut
          rw [hrest] at h
          simp only [Except.ok.injEq, Prod.mk.injEq] at h
          obtain ⟨h1, h2⟩ := h
          subst h1; subst h2
          simp [ih egs0 crgs0 hrest]

lemma seqGroup_lengths (cfg : ConverterCfg) (mob : ℚ → Nat → ℚ)
    (oracle : List Char → Except Unit ChemPeptide) (i : Nat)
    (d : DigestSlice) :
    (seqGroup cfg mob oracle i d).2.length =
      (seqGroup cfg mob oracle i d).1.length := by
  cases hs : digest_to_string d with
  | none => simp [seqGroup, hs]
  | some s =>
    cases hc : convert_sequence cfg mob (oracle s) i with
    | error e => simp [seqGroup, hs, hc]
    | ok g =>
      obtain ⟨egs, crgs⟩ := g
      simp only [seqGroup, hs, hc]
      unfold convert_sequence at hc
      cases horacle : oracle s with
      | error e => rw [horacle] at hc; cases hc
      | ok chem =>
        rw [horacle] at hc
        simp only at hc
        by_cases hfc : 1 < chem.formulaCount
        · rw [if_pos hfc] at hc; cases hc
        · rw [if_neg hfc] at hc
          exact convertGo_lengths cfg chem mob i (chargeList cfg) egs crgs hc

lemma convertSequencesGo_spec (cfg : ConverterCfg) (mob : ℚ → Nat → ℚ)
    (oracle : List Char → Except Unit ChemPeptide) :
    ∀ (slices : List DigestSlice) (i : Nat),
      (∀ d ∈ slices, (digest_to_string d).isSome) →
      convertSequencesGo cfg mob oracle i slices =
        some
          (((slices.enumFrom i).map fun p =>
            List.replicate (seqGroup cfg mob oracle p.1 p.2).1.length
              p.2).join,
          ((slices.enumFrom i).map fun p =>
            (seqGroup cfg mob oracle p.1 p.2).1).join,
          ((slices.enumFrom i).map fun p =>
            (seqGroup cfg mob oracle p.1 p.2).2).join) := by
  intro slices
  induction slices with
  | nil => intro i _; rfl
  | cons d rest ih =>
    intro i hmat
    have hd : (digest_to_string d).isSome := hmat d (by simp)
    obtain ⟨s, hs⟩ := Option.isSome_iff_exists.mp hd
    have hrest := ih (i + 1) (fun q hq => hmat q (by simp [hq]))
    cases hc : convert_sequence cfg mob (oracle s) i with
    | error e =>
      have hsg : seqGroup cfg mob oracle i d = ([], []) := by
        simp only [seqGroup, hs, hc]
      simp only [convertSequencesGo, hs, hrest, hc, List.enumFrom_cons,
        List.map_cons, List.join_cons, hsg]
      simp
    | ok g =>
      obtain ⟨egs, crgs⟩ := g
      have hsg : seqGroup cfg mob oracle i d = (egs, crgs) := by
        simp only [seqGroup, hs, hc]
      simp only [convertSequencesGo, hs, hrest, hc, List.enumFrom_cons,
        List.map_cons, List.join_cons, hsg]

/-- C9: for every slice list whose elements all materialize,
`convert_sequences` returns `Ok` (a per-sequence conversion error only
omits that sequence's group, never aborts the batch); the slice column is
the concatenation of per-sequence runs `replicate #queries slice` (each
successfully converted sequence contributes a contiguous run paired with
its originating slice, one entry per emitted query); the query and charge
columns are the concatenations of the per-sequence groups; and the three
columns have equal length. -/
theorem convert_sequences_error_isolation (cfg : ConverterCfg)
    (mob : ℚ → Nat → ℚ) (oracle : List Char → Except Unit ChemPeptide)
    (slices : List DigestSlice)
    (hmat : ∀ d ∈ slices, (digest_to_string d).isSome) :
    ∃ t, convert_sequences cfg mob oracle slices = some (.ok t) ∧
      t.1 = ((slices.enumFrom 0).map fun p =>
        List.replicate (seqGroup cfg mob oracle p.1 p.2).1.length
          p.2).join ∧
      t.2.1 = ((slices.enumFrom 0).map fun p =>
        (seqGroup cfg mob oracle p.1 p.2).1).join ∧
      t.2.2 = ((slices.enumFrom 0).map fun p =>
        (seqGroup cfg mob oracle p.1 p.2).2).join ∧
      t.1.length = t.2.1.length ∧ t.2.2.length = t.2.1.length := by
  have h := convertSequencesGo_spec cfg mob oracle slices 0 hmat
  refine ⟨(((slices.enumFrom 0).map fun p =>
      List.replicate (seqGroup cfg mob oracle p.1 p.2).1.length
        p.2).join,
    ((slices.enumFrom 0).map fun p =>
      (seqGroup cfg mob oracle p.1 p.2).1).join,
    ((slices.enumFrom 0).map fun p =>
      (seqGroup cfg mob oracle p.1 p.2).2).join),
    ?_, rfl, rfl, rfl, ?_, ?_⟩
  · unfold convert_sequences
    rw [h, Option.map_some']
  · simp only [List.length_join, List.map_map]
    congr 1
    congr 1
    funext p
    simp
  · simp only [List.length_join, List.map_map]
    congr 1
    congr 1
    funext p
    simp [seqGroup_lengths]

/-- A chemistry oracle that resolves "AA" to `chemEdge` and fails on every
other sequence (e.g. a multi-formula peptide). -/
def oracleEx : List Char → Except Unit ChemPeptide := fun s =>
  if s = "AA".toList then .ok chemEdge else .error ()

/-- Two target slices; the second one fails conversion under `oracleEx`. -/
def slicesEx : List DigestSlice :=
  [⟨"AA".toList, 0, 2, .Target⟩, ⟨"BB".toList, 0, 2, .Target⟩]

/-- Witness for C9: with one convertible and one failing slice, the batch
call still returns `Ok`, the failing slice is omitted, and the surviving
slice's run pairs it with its one emitted query and charge. -/
theorem convert_sequences_error_isolation_witness :
    convert_sequences converterDefault mobZero oracleEx slicesEx =
      some (.ok ([⟨"AA".toList, 0, 2, .Target⟩], [egEdge], [2])) := by
  obtain ⟨t, h1, h2, h3, h4, -⟩ :=
    convert_sequences_error_isolation converterDefault mobZero
      oracleEx slicesEx (by decide)
  have hgA : seqGroup converterDefault mobZero oracleEx 0
      ⟨['A', 'A'], 0, 2, .Target⟩ = ([egEdge], [2]) := by
    have hstr : digest_to_string ⟨['A', 'A'], 0, 2, .Target⟩ =
        some ['A', 'A'] := by decide
    have hor : oracleEx ['A', 'A'] = .ok chemEdge := by
      simp [oracleEx]
    simp [seqGroup, hstr, hor, convert_edge_eval]
  have hgB : seqGroup converterDefault mobZero oracleEx 1
      ⟨['B', 'B'], 0, 2, .Target⟩ = ([], []) := by
    have hstr : digest_to_string ⟨['B', 'B'], 0, 2, .Target⟩ =
        some ['B', 'B'] := by decide
    have hor : oracleEx ['B', 'B'] = .error () := by
      simp [oracleEx]
    simp [seqGroup, hstr, hor, convert_sequence]
  rw [h1]
  obtain ⟨t1, t2, t3⟩ := t
  simp [slicesEx, hgA, hgB] at h2 h3 h4
  simp [h2, h3, h4]

end Timsseek
